import Mathlib

/-!
Shallow embedding of `src/python-tk/cyberpunk_tasks.py` (Troxfar/TaskList).

The program is a Tkinter task board.  The logic relevant to the claims is:

* `TaskBoardApp.add_task`, `add_completed_task`, `add_task_dialog`
* `TaskCard.complete`, `TaskCard.restore`, `TaskCard.delete`, `TaskCard.edit`
* `TaskCard.on_drag_motion` (the pointer-to-index computation)
* `TaskBoardApp.save_state`, `load_state`, and the default seeding in `__init__`

Modelling decisions:

* A `TaskCard` object is modelled by a `Record` carrying a numeric `id` that
  stands for Python object identity: every card construction allocates a fresh
  id from a counter in the state, so two distinct objects never share an id.
  Python `card in list` / `list.remove(card)` compare by object identity and
  are modelled by the id-based `containsRec` / `removeRec`.
* Parsed JSON values are modelled by the inductive `Json`.  `Json.obj` models
  the Python dict produced by `json.load`, whose keys are distinct.
* Card texts are `Json` values because `load_state` feeds whatever it finds in
  the file straight into `add_task`; texts coming from the dialogs are strings
  (`Json.str`).
* Python `str.strip()` is modelled by `pyStrip` over the ASCII whitespace
  characters; `simpledialog.askstring` results are `Option String` (`none` for
  a cancelled dialog) and Python truthiness of that result is "some non-empty
  string".
* File I/O: `FileRead.missing` models a non-existing file,
  `FileRead.unreadable` models an open/read error or a `json.load` parse error
  (both raise inside the `try` of `load_state`), and `FileRead.parsed j` a file
  whose contents parsed to the Python value `j`.
-/

/-- A parsed JSON / Python value (ints stand in for JSON numbers). -/
inductive Json where
  | null
  | bool (b : Bool)
  | num (n : Int)
  | str (s : String)
  | arr (elems : List Json)
  | obj (fields : List (String × Json))

/-- A `TaskCard`: the `id` models Python object identity (allocation order),
`text` models the card's `self.text`. -/
structure Record where
  id : Nat
  text : Json

/-- The board-state part of `TaskBoardApp`: `self.tasks`, `self.completed`,
plus the allocation counter realising object identity. -/
structure AppState where
  tasks : List Record
  completed : List Record
  nextId : Nat

/-- The app right after `__init__` sets `self.tasks = []` and
`self.completed = []`, before `load_state` runs. -/
def emptyState : AppState := ⟨[], [], 0⟩

/-- ASCII whitespace as recognised by Python `str.strip()` (the Unicode
whitespace stripped by Python restricted to the characters the program can
meet in this development). -/
def pyIsSpace (c : Char) : Bool :=
  c = ' ' || c = '\t' || c = '\n' || c = '\r' || c = '\x0b' || c = '\x0c'

/-- Python `s.strip()`: drop whitespace from both ends. -/
def pyStrip (s : String) : String :=
  ⟨((s.data.dropWhile pyIsSpace).reverse.dropWhile pyIsSpace).reverse⟩

/-- Python `card in lst` (identity comparison, hence by id). -/
def containsRec (l : List Record) (r : Record) : Bool :=
  l.any (fun x => x.id = r.id)

/-- Python `lst.remove(card)`: remove the first element identical to `card`.
(When no element matches, Python raises; the program always guards the call
with `in`, and on no match this model returns the list unchanged.) -/
def removeRec : List Record → Record → List Record
  | [], _ => []
  | x :: xs, r => if x.id = r.id then xs else x :: removeRec xs r

/-- `TaskBoardApp.add_task`: construct a fresh card and append it to
`self.tasks`. -/
def add_task (s : AppState) (text : Json) : AppState :=
  { s with tasks := s.tasks ++ [⟨s.nextId, text⟩], nextId := s.nextId + 1 }

/-- `TaskBoardApp.add_completed_task`: construct a fresh card and append it to
`self.completed`. -/
def add_completed_task (s : AppState) (text : Json) : AppState :=
  { s with completed := s.completed ++ [⟨s.nextId, text⟩], nextId := s.nextId + 1 }

/-- `TaskBoardApp.add_task_dialog`: `text = askstring(...)`;
`if text: self.add_task(text.strip())`.  Note the truthiness test happens on
the raw dialog result, before stripping. -/
def add_task_dialog (s : AppState) (input : Option String) : AppState :=
  match input with
  | none => s
  | some text => if text = "" then s else add_task s (Json.str (pyStrip text))

/-- `TaskCard.complete`: first `add_completed_task(self.text)` (a new card),
then `if self in self.app.tasks: self.app.tasks.remove(self)`. -/
def complete (s : AppState) (c : Record) : AppState :=
  let s1 := add_completed_task s c.text
  if containsRec s1.tasks c then { s1 with tasks := removeRec s1.tasks c } else s1

/-- `TaskCard.restore`: `if self in self.app.completed:
self.app.completed.remove(self)`, then `add_task(self.text)` (a new card). -/
def restore (s : AppState) (c : Record) : AppState :=
  let s1 :=
    if containsRec s.completed c then { s with completed := removeRec s.completed c } else s
  add_task s1 c.text

/-- `TaskCard.delete`: remove from `tasks` if present, else from `completed`
if present, else change nothing. -/
def delete (s : AppState) (c : Record) : AppState :=
  if containsRec s.tasks c then { s with tasks := removeRec s.tasks c }
  else if containsRec s.completed c then { s with completed := removeRec s.completed c }
  else s

/-- Replace, in place, the text of the record with the given identity. -/
def replaceText (l : List Record) (rid : Nat) (t : Json) : List Record :=
  l.map (fun x => if x.id = rid then { x with text := t } else x)

/-- `TaskCard.edit`: `new_text = askstring(...)`;
`if new_text: self.text = new_text.strip()`.  The mutation is in place on the
object, so it reaches the record wherever it is held; again truthiness is
tested before stripping. -/
def edit (s : AppState) (c : Record) (input : Option String) : AppState :=
  match input with
  | none => s
  | some t =>
    if t = "" then s
    else { s with tasks := replaceText s.tasks c.id (Json.str (pyStrip t)),
                  completed := replaceText s.completed c.id (Json.str (pyStrip t)) }

/-- `TaskBoardApp.save_state`: the value serialised to `tasks.json`. -/
def save_state (s : AppState) : Json :=
  Json.obj [("tasks", Json.arr (s.tasks.map (fun c => c.text))),
            ("completed", Json.arr (s.completed.map (fun c => c.text)))]

/-- Outcome of trying to read and parse `tasks.json`. -/
inductive FileRead where
  | missing
  | unreadable
  | parsed (j : Json)

/-- Python `data.get(key, dflt)` on the dict `json.load` produced (its keys
are distinct, so first match suffices). -/
def pyDictGet (fields : List (String × Json)) (key : String) (dflt : Json) : Json :=
  match fields.find? (fun f => f.1 == key) with
  | some f => f.2
  | none => dflt

/-- Python `iter(v)` on a parsed JSON value: lists yield their elements,
strings their characters (as 1-character strings), dicts their keys; other
values raise `TypeError` (`none`). -/
def pyIterate : Json → Option (List Json)
  | Json.arr xs => some xs
  | Json.str s => some (s.data.map (fun c => Json.str (String.singleton c)))
  | Json.obj fs => some (fs.map (fun f => Json.str f.1))
  | _ => none

/-- `TaskBoardApp.load_state`.  Returns the (possibly partially mutated) state
together with the boolean the Python method returns.  A missing file returns
`False` before the `try`; a read or parse failure raises inside the `try`
before any mutation; `data.get` raises `AttributeError` when `data` is not a
dict; `iter` raises `TypeError` on a non-iterable value — each lands in the
`except` and yields `False`, keeping whatever mutations already happened. -/
def load_state (s : AppState) : FileRead → AppState × Bool
  | FileRead.missing => (s, false)
  | FileRead.unreadable => (s, false)
  | FileRead.parsed j =>
    match j with
    | Json.obj fields =>
      match pyIterate (pyDictGet fields "tasks" (Json.arr [])) with
      | none => (s, false)
      | some ts =>
        let s1 := ts.foldl add_task s
        match pyIterate (pyDictGet fields "completed" (Json.arr [])) with
        | none => (s1, false)
        | some cs => (cs.foldl add_completed_task s1, true)
    | _ => (s, false)

/-- The four texts seeded by `__init__` when `load_state` returns `False`. -/
def default_tasks : List String :=
  ["Patch proxies to 12.2.18",
   "Prepare AI Steering Committee slides",
   "Finish CrowdStrike DFD",
   "Schedule PCI policy review"]

/-- `TaskBoardApp.__init__` after the widgets: start from empty lists, run
`load_state`, and if it returned `False` seed the four default tasks (on top
of whatever a partially failed load already added). -/
def startup (f : FileRead) : AppState :=
  let r := load_state emptyState f
  if r.2 then r.1
  else default_tasks.foldl (fun acc t => add_task acc (Json.str t)) r.1

/-- Python `h or 1` on a card height (`winfo_height() or 1`). -/
def heightOr1 (h : Int) : Int := if h = 0 then 1 else h

/-- The `y_centers` list of `on_drag_motion`: `y + h / 2` of each card, from
its `(winfo_y(), winfo_height())` pair. -/
def y_centers (geom : List (Int × Int)) : List ℚ :=
  geom.map (fun g => (g.1 : ℚ) + (heightOr1 g.2 : ℚ) / 2)

/-- The scanning loop of `on_drag_motion`, carrying the running index `i`:
`for i, c_y in enumerate(y_centers): if pointer_y < c_y: target_index = i; break`. -/
def scanCenters (p : ℚ) : List ℚ → Nat → Option Nat
  | [], _ => none
  | c :: rest, i => if p < c then some i else scanCenters p rest (i + 1)

/-- The target-index computation of `TaskCard.on_drag_motion`: the scanning
loop, whose `else` clause (loop ended without `break`) sets
`len(cards) - 1`.  The Python initialisation `target_index = self._drag_index`
before the loop is dead: one of the two branches always overwrites it.  The
result is `Int`-valued because Python's `len(cards) - 1` is `-1` on an empty
list. -/
def on_drag_motion_target (geom : List (Int × Int)) (pointerY : ℚ) : Int :=
  match scanCenters pointerY (y_centers geom) 0 with
  | some i => (i : Int)
  | none => ((y_centers geom).length : Int) - 1

/-- Transcribed from the spec's words, for comparison with the code: the
first index whose midpoint exceeds the pointer position, if any. -/
def firstExceeding (p : ℚ) : List ℚ → Option Nat
  | [] => none
  | c :: rest => if p < c then some 0 else (firstExceeding p rest).map (fun j => j + 1)

/-- Transcribed from the spec's words: select the first index whose midpoint
exceeds the pointer position, defaulting to the last index if none qualify. -/
def specDragTarget (centers : List ℚ) (p : ℚ) : Int :=
  match firstExceeding p centers with
  | some i => (i : Int)
  | none => (centers.length : Int) - 1

theorem scanCenters_eq_firstExceeding (p : ℚ) (l : List ℚ) (i : Nat) :
    scanCenters p l i = (firstExceeding p l).map (fun j => i + j) := by
  induction l generalizing i with
  | nil => rfl
  | cons c rest ih =>
    by_cases h : p < c
    · simp [scanCenters, firstExceeding, h]
    · simp only [scanCenters, firstExceeding, if_neg h, ih (i + 1), Option.map_map]
      cases firstExceeding p rest with
      | none => rfl
      | some j =>
        simp only [Option.map_some', Function.comp_apply]
        congr 1
        omega

theorem firstExceeding_eq_none (p : ℚ) (l : List ℚ) (h : ∀ c ∈ l, ¬ p < c) :
    firstExceeding p l = none := by
  induction l with
  | nil => rfl
  | cons c rest ih =>
    have hc : ¬ p < c := h c (List.mem_cons_self c rest)
    simp [firstExceeding, hc, ih (fun x hx => h x (List.mem_cons_of_mem c hx))]

theorem firstExceeding_eq_some (p : ℚ) (l : List ℚ) (j : Nat) (hj : j < l.length)
    (hlt : p < l.get ⟨j, hj⟩)
    (hmin : ∀ m (hm : m < l.length), m < j → ¬ p < l.get ⟨m, hm⟩) :
    firstExceeding p l = some j := by
  induction l generalizing j with
  | nil => exact absurd hj (by simp)
  | cons c rest ih =>
    cases j with
    | zero =>
      simp only [List.get] at hlt
      simp [firstExceeding, hlt]
    | succ k =>
      have hc : ¬ p < c := hmin 0 (by simp) (Nat.succ_pos k)
      have hk : k < rest.length := Nat.lt_of_succ_lt_succ hj
      have hrest : firstExceeding p rest = some k := by
        refine ih k hk hlt ?_
        intro m hm hmk
        exact hmin (m + 1) (Nat.succ_lt_succ hm) (Nat.succ_lt_succ hmk)
      simp [firstExceeding, hc, hrest]

/-- C3: for every non-empty active list and pointer position, the drag target
index computed by `on_drag_motion` equals the spec's description (first index
whose card midpoint exceeds the pointer position, last index when none
qualifies); in particular a pointer strictly below every midpoint yields
index 0 and a pointer at or above every midpoint yields the last index. -/
theorem drag_target_first_midpoint_exceeding (geom : List (Int × Int)) (p : ℚ)
    (h : geom ≠ []) :
    on_drag_motion_target geom p = specDragTarget (y_centers geom) p ∧
    ((∀ i : Fin (y_centers geom).length, p < (y_centers geom).get i) →
      on_drag_motion_target geom p = 0) ∧
    ((∀ i : Fin (y_centers geom).length, ¬ p < (y_centers geom).get i) →
      on_drag_motion_target geom p = ((y_centers geom).length : Int) - 1) ∧
    (∀ i : Fin (y_centers geom).length, p < (y_centers geom).get i →
      (∀ m : Fin (y_centers geom).length, (m : Nat) < (i : Nat) →
        ¬ p < (y_centers geom).get m) →
      on_drag_motion_target geom p = ((i : Nat) : Int)) := by
  have key : on_drag_motion_target geom p = specDragTarget (y_centers geom) p := by
    unfold on_drag_motion_target specDragTarget
    rw [scanCenters_eq_firstExceeding]
    cases firstExceeding p (y_centers geom) with
    | none => rfl
    | some j => simp
  have len_pos : 0 < (y_centers geom).length := by
    cases geom with
    | nil => exact absurd rfl h
    | cons g gs => simp [y_centers]
  have keyd : ∀ i : Fin (y_centers geom).length, p < (y_centers geom).get i →
      (∀ m : Fin (y_centers geom).length, (m : Nat) < (i : Nat) →
        ¬ p < (y_centers geom).get m) →
      on_drag_motion_target geom p = ((i : Nat) : Int) := by
    intro i hi hmin
    rw [key]
    unfold specDragTarget
    rw [firstExceeding_eq_some p (y_centers geom) i.1 i.2 hi
      (fun m hm hmk => hmin ⟨m, hm⟩ hmk)]
  refine ⟨key, ?_, ?_, keyd⟩
  · intro hall
    have h0 := keyd ⟨0, len_pos⟩ (hall ⟨0, len_pos⟩)
      (fun m hm => absurd hm (Nat.not_lt_zero _))
    simpa using h0
  · intro hnone
    rw [key]
    unfold specDragTarget
    rw [firstExceeding_eq_none p (y_centers geom)]
    intro c hc
    obtain ⟨i, hi⟩ := List.mem_iff_get.mp hc
    rw [← hi]
    exact hnone i

/-- Witness for C3 at two cards with midpoints `5` and `25` and the pointer
at `1`, above both. -/
theorem drag_target_first_midpoint_exceeding_witness :
    ([((0 : Int), (10 : Int)), (20, 10)] : List (Int × Int)) ≠ [] ∧
    on_drag_motion_target [((0 : Int), (10 : Int)), (20, 10)] 1 = 0 := by
  constructor
  · decide
  · exact (drag_target_first_midpoint_exceeding [((0 : Int), (10 : Int)), (20, 10)] 1
      (by decide)).2.1 (by intro i; fin_cases i <;> norm_num [y_centers, heightOr1])

/-- C2: startup with a missing file, and startup with a file that fails to
read or parse, both yield exactly the four-item default active list (in
order) and an empty completed list. -/
theorem startup_missing_or_unreadable_defaults :
    startup FileRead.missing =
      ⟨[⟨0, Json.str "Patch proxies to 12.2.18"⟩,
        ⟨1, Json.str "Prepare AI Steering Committee slides"⟩,
        ⟨2, Json.str "Finish CrowdStrike DFD"⟩,
        ⟨3, Json.str "Schedule PCI policy review"⟩], [], 4⟩ ∧
    startup FileRead.unreadable =
      ⟨[⟨0, Json.str "Patch proxies to 12.2.18"⟩,
        ⟨1, Json.str "Prepare AI Steering Committee slides"⟩,
        ⟨2, Json.str "Finish CrowdStrike DFD"⟩,
        ⟨3, Json.str "Schedule PCI policy review"⟩], [], 4⟩ :=
  ⟨rfl, rfl⟩

/-- C10 counterexample: a file parsing to the JSON object with the single
binding "completed" ↦ null lacks the "tasks" key, yet `load_state` returns
`False` (the `for` over the non-iterable value raises), and startup
consequently seeds the defaults. -/
theorem load_state_missing_tasks_key_can_fail :
    (load_state emptyState
        (FileRead.parsed (Json.obj [("completed", Json.null)]))).2 = false ∧
    startup (FileRead.parsed (Json.obj [("completed", Json.null)])) =
      startup FileRead.missing :=
  ⟨rfl, rfl⟩

theorem load_state_parsed_obj_eq (s : AppState) (fs : List (String × Json))
    (ts cs : List Json)
    (hts : pyIterate (pyDictGet fs "tasks" (Json.arr [])) = some ts)
    (hcs : pyIterate (pyDictGet fs "completed" (Json.arr [])) = some cs) :
    load_state s (FileRead.parsed (Json.obj fs))
      = (cs.foldl add_completed_task (ts.foldl add_task s), true) := by
  show (match pyIterate (pyDictGet fs "tasks" (Json.arr [])) with
      | none => (s, false)
      | some ts2 =>
        match pyIterate (pyDictGet fs "completed" (Json.arr [])) with
        | none => (ts2.foldl add_task s, false)
        | some cs2 => (cs2.foldl add_completed_task (ts2.foldl add_task s), true))
      = (cs.foldl add_completed_task (ts.foldl add_task s), true)
  rw [hcs, hts]

/-- C10 amended: for every persisted file that parses as a JSON object — any
number of bindings, extra keys included — in which each of the "tasks" and
"completed" keys is either absent or bound to a value the `for` loop can
iterate (in a well-formed file, an array), `load_state` succeeds (so no
defaults are seeded), and each missing key is treated exactly as if it were
bound to the empty array. -/
theorem load_state_missing_keys_as_empty (s : AppState)
    (fs : List (String × Json))
    (htasks : ∀ f, fs.find? (fun g => g.1 == "tasks") = some f →
      pyIterate f.2 ≠ none)
    (hcompleted : ∀ f, fs.find? (fun g => g.1 == "completed") = some f →
      pyIterate f.2 ≠ none) :
    (load_state s (FileRead.parsed (Json.obj fs))).2 = true ∧
    (fs.find? (fun g => g.1 == "tasks") = none →
      load_state s (FileRead.parsed (Json.obj fs))
        = load_state s (FileRead.parsed (Json.obj (("tasks", Json.arr []) :: fs)))) ∧
    (fs.find? (fun g => g.1 == "completed") = none →
      load_state s (FileRead.parsed (Json.obj fs))
        = load_state s (FileRead.parsed
            (Json.obj (("completed", Json.arr []) :: fs)))) := by
  have hT : ∃ ts, pyIterate (pyDictGet fs "tasks" (Json.arr [])) = some ts := by
    cases hfind : fs.find? (fun g => g.1 == "tasks") with
    | none =>
      refine ⟨[], ?_⟩
      unfold pyDictGet
      rw [hfind]
      rfl
    | some f =>
      have hne := htasks f hfind
      cases hit : pyIterate f.2 with
      | none => exact absurd hit hne
      | some ts =>
        refine ⟨ts, ?_⟩
        unfold pyDictGet
        rw [hfind]
        exact hit
  have hC : ∃ cs, pyIterate (pyDictGet fs "completed" (Json.arr [])) = some cs := by
    cases hfind : fs.find? (fun g => g.1 == "completed") with
    | none =>
      refine ⟨[], ?_⟩
      unfold pyDictGet
      rw [hfind]
      rfl
    | some f =>
      have hne := hcompleted f hfind
      cases hit : pyIterate f.2 with
      | none => exact absurd hit hne
      | some cs =>
        refine ⟨cs, ?_⟩
        unfold pyDictGet
        rw [hfind]
        exact hit
  obtain ⟨ts, hts⟩ := hT
  obtain ⟨cs, hcs⟩ := hC
  refine ⟨?_, ?_, ?_⟩
  · rw [load_state_parsed_obj_eq s fs ts cs hts hcs]
  · intro habs
    have hts0 : ts = [] := by
      unfold pyDictGet at hts
      rw [habs] at hts
      injection hts with h
      exact h.symm
    have h2ts : pyIterate (pyDictGet (("tasks", Json.arr []) :: fs) "tasks"
        (Json.arr [])) = some [] := rfl
    have h2cs : pyIterate (pyDictGet (("tasks", Json.arr []) :: fs) "completed"
        (Json.arr [])) = some cs := hcs
    rw [load_state_parsed_obj_eq s fs ts cs hts hcs,
      load_state_parsed_obj_eq s (("tasks", Json.arr []) :: fs) [] cs h2ts h2cs,
      hts0]
  · intro habs
    have hcs0 : cs = [] := by
      unfold pyDictGet at hcs
      rw [habs] at hcs
      injection hcs with h
      exact h.symm
    have h3ts : pyIterate (pyDictGet (("completed", Json.arr []) :: fs) "tasks"
        (Json.arr [])) = some ts := hts
    have h3cs : pyIterate (pyDictGet (("completed", Json.arr []) :: fs) "completed"
        (Json.arr [])) = some [] := rfl
    rw [load_state_parsed_obj_eq s fs ts cs hts hcs,
      load_state_parsed_obj_eq s (("completed", Json.arr []) :: fs) ts [] h3ts h3cs,
      hcs0]

/-- Witness for C10's amended theorem at a file that has an extra key and a
present iterable "completed" but lacks "tasks": load succeeds and behaves as
if "tasks" were bound to the empty array. -/
theorem load_state_missing_keys_as_empty_witness :
    (load_state emptyState (FileRead.parsed (Json.obj
        [("completed", Json.arr [Json.str "x"]), ("other", Json.num 1)]))).2
      = true ∧
    load_state emptyState (FileRead.parsed (Json.obj
        [("completed", Json.arr [Json.str "x"]), ("other", Json.num 1)]))
      = load_state emptyState (FileRead.parsed (Json.obj
          (("tasks", Json.arr [])
            :: [("completed", Json.arr [Json.str "x"]), ("other", Json.num 1)]))) := by
  have h := load_state_missing_keys_as_empty emptyState
    [("completed", Json.arr [Json.str "x"]), ("other", Json.num 1)]
    (by
      intro f hf
      simp [List.find?] at hf)
    (by
      intro f hf
      injection hf with h2
      rw [← h2]
      intro hnone
      exact Option.noConfusion hnone)
  exact ⟨h.1, h.2.1 rfl⟩

theorem foldl_add_task_spec (ts : List Json) (s : AppState) :
    (ts.foldl add_task s).tasks
        = s.tasks ++ List.zipWith Record.mk (List.range' s.nextId ts.length) ts ∧
    (ts.foldl add_task s).completed = s.completed ∧
    (ts.foldl add_task s).nextId = s.nextId + ts.length := by
  induction ts generalizing s with
  | nil => simp
  | cons t rest ih =>
    obtain ⟨h1, h2, h3⟩ := ih (add_task s t)
    refine ⟨?_, ?_, ?_⟩
    · rw [List.foldl_cons, h1]
      simp only [add_task, List.length_cons, List.range'_succ, List.zipWith_cons_cons,
        List.append_assoc, List.singleton_append]
    · rw [List.foldl_cons, h2]
      rfl
    · rw [List.foldl_cons, h3]
      simp only [add_task, List.length_cons]
      omega

theorem foldl_add_completed_task_spec (ts : List Json) (s : AppState) :
    (ts.foldl add_completed_task s).completed
        = s.completed ++ List.zipWith Record.mk (List.range' s.nextId ts.length) ts ∧
    (ts.foldl add_completed_task s).tasks = s.tasks ∧
    (ts.foldl add_completed_task s).nextId = s.nextId + ts.length := by
  induction ts generalizing s with
  | nil => simp
  | cons t rest ih =>
    obtain ⟨h1, h2, h3⟩ := ih (add_completed_task s t)
    refine ⟨?_, ?_, ?_⟩
    · rw [List.foldl_cons, h1]
      simp only [add_completed_task, List.length_cons, List.range'_succ,
        List.zipWith_cons_cons, List.append_assoc, List.singleton_append]
    · rw [List.foldl_cons, h2]
      rfl
    · rw [List.foldl_cons, h3]
      simp only [add_completed_task, List.length_cons]
      omega

theorem zipWith_mk_map_text (ids : List Nat) (ts : List Json)
    (h : ids.length = ts.length) :
    (List.zipWith Record.mk ids ts).map (fun r => r.text) = ts := by
  induction ids generalizing ts with
  | nil => cases ts with
    | nil => rfl
    | cons t rest => simp at h
  | cons i rest ih =>
    cases ts with
    | nil => simp at h
    | cons t trest =>
      simp only [List.zipWith_cons_cons, List.map_cons]
      rw [ih trest (by simpa using h)]

theorem zipWith_mk_map_id (ids : List Nat) (ts : List Json)
    (h : ids.length = ts.length) :
    (List.zipWith Record.mk ids ts).map (fun r => r.id) = ids := by
  induction ids generalizing ts with
  | nil => rfl
  | cons i rest ih =>
    cases ts with
    | nil => simp at h
    | cons t trest =>
      simp only [List.zipWith_cons_cons, List.map_cons]
      rw [ih trest (by simpa using h)]

/-- C1: saving a board and loading the result into a fresh empty board
succeeds and reproduces the texts and order of both lists exactly; the loaded
records carry the identities `0, 1, 2, …` of the fresh board's allocation
counter, showing they are newly created records rather than the saved ones. -/
theorem save_load_roundtrip (s : AppState) :
    (load_state emptyState (FileRead.parsed (save_state s))).2 = true ∧
    (load_state emptyState (FileRead.parsed (save_state s))).1.tasks.map
        (fun r => r.text) = s.tasks.map (fun r => r.text) ∧
    (load_state emptyState (FileRead.parsed (save_state s))).1.completed.map
        (fun r => r.text) = s.completed.map (fun r => r.text) ∧
    ((load_state emptyState (FileRead.parsed (save_state s))).1.tasks
        ++ (load_state emptyState (FileRead.parsed (save_state s))).1.completed).map
        (fun r => r.id)
      = List.range (s.tasks.length + s.completed.length) := by
  have hload : load_state emptyState (FileRead.parsed (save_state s)) =
      ((s.completed.map (fun r => r.text)).foldl add_completed_task
        ((s.tasks.map (fun r => r.text)).foldl add_task emptyState), true) := rfl
  obtain ⟨ht1, ht2, ht3⟩ :=
    foldl_add_task_spec (s.tasks.map (fun r => r.text)) emptyState
  obtain ⟨hc1, hc2, hc3⟩ :=
    foldl_add_completed_task_spec (s.completed.map (fun r => r.text))
      ((s.tasks.map (fun r => r.text)).foldl add_task emptyState)
  rw [hload]
  refine ⟨rfl, ?_, ?_, ?_⟩
  · rw [hc2, ht1]
    simp only [emptyState, List.nil_append]
    exact zipWith_mk_map_text _ _ (by simp [List.length_range'])
  · rw [hc1, ht2, ht3]
    simp only [emptyState, List.nil_append, List.length_map]
    exact zipWith_mk_map_text _ _ (by simp [List.length_range'])
  · rw [hc1, hc2, ht1, ht2, ht3]
    simp only [emptyState, List.nil_append, List.length_map, List.map_append]
    rw [zipWith_mk_map_id _ _ (by simp [List.length_range']),
      zipWith_mk_map_id _ _ (by simp [List.length_range'])]
    rw [List.range_eq_range']
    simp only [Nat.zero_add]
    have := List.range'_append 0 s.tasks.length s.completed.length 1
    simp only [Nat.one_mul, Nat.zero_add] at this
    rw [this, Nat.add_comm]

/-- C4 counterexample: the whitespace-only dialog input " " is not rejected.
`if text:` is true on a non-empty whitespace string, so `add_task` runs and
appends a new record whose text is the stripped — hence empty — string. -/
theorem add_whitespace_only_not_rejected :
    pyStrip " " = "" ∧
    emptyState.tasks = [] ∧
    (add_task_dialog emptyState (some " ")).tasks = [⟨0, Json.str ""⟩] :=
  ⟨rfl, rfl, rfl⟩

/-- C4 amended: the add dialog rejects a cancelled dialog and the empty
string (both lists unchanged, no record created); any other input —
whitespace-only inputs included — appends exactly one new record holding the
stripped input text to the end of the active list and leaves the completed
list unchanged.  A whitespace-only input therefore yields a record with empty
text rather than being rejected. -/
theorem add_task_dialog_amended (s : AppState) (input : Option String) :
    ((input = none ∨ input = some "") → add_task_dialog s input = s) ∧
    (∀ t : String, input = some t → t ≠ "" →
      (add_task_dialog s input).tasks = s.tasks ++ [⟨s.nextId, Json.str (pyStrip t)⟩] ∧
      (add_task_dialog s input).completed = s.completed) := by
  constructor
  · rintro (rfl | rfl) <;> rfl
  · rintro t rfl ht
    constructor <;> simp [add_task_dialog, ht, add_task]

/-- Witness for C4 at the input " buy milk ". -/
theorem add_task_dialog_amended_witness :
    (add_task_dialog emptyState (some " buy milk ")).tasks
        = [⟨0, Json.str (pyStrip " buy milk ")⟩] ∧
    pyStrip " buy milk " = "buy milk" ∧
    (add_task_dialog emptyState (some " buy milk ")).completed = [] := by
  have h := (add_task_dialog_amended emptyState (some " buy milk ")).2
    " buy milk " rfl (by decide)
  exact ⟨by simpa using h.1, by decide, h.2⟩

/-- C5 counterexample: editing a record whose text is "a" with the
whitespace-only replacement " " does not leave the text unchanged: `if
new_text:` is true, so the text becomes the stripped — empty — string. -/
theorem edit_whitespace_only_changes_text :
    pyStrip " " = "" ∧
    (edit ⟨[⟨0, Json.str "a"⟩], [], 1⟩ ⟨0, Json.str "a"⟩ (some " ")).tasks
        = [⟨0, Json.str ""⟩] ∧
    Json.str "" ≠ Json.str "a" := by
  refine ⟨rfl, rfl, fun h => ?_⟩
  injection h with h2
  exact absurd h2 (by decide)

/-- C5 amended: edit with a cancelled dialog or an empty replacement leaves
the state unchanged; edit with any non-empty replacement — whitespace-only
replacements included — keeps every record at its position with its identity,
replaces the text of the record with the edited card's identity by the
trimmed replacement, and leaves every other record untouched.  A
whitespace-only replacement therefore sets the text to the empty string
rather than being a no-op. -/
theorem edit_amended (s : AppState) (c : Record) (input : Option String) :
    ((input = none ∨ input = some "") → edit s c input = s) ∧
    (∀ t : String, input = some t → t ≠ "" →
      (∀ i : Nat, (edit s c input).tasks.get? i =
        (s.tasks.get? i).map
          (fun x => if x.id = c.id then ⟨x.id, Json.str (pyStrip t)⟩ else x)) ∧
      (∀ i : Nat, (edit s c input).completed.get? i =
        (s.completed.get? i).map
          (fun x => if x.id = c.id then ⟨x.id, Json.str (pyStrip t)⟩ else x))) := by
  constructor
  · rintro (rfl | rfl) <;> rfl
  · rintro t rfl ht
    constructor <;> intro i <;>
      simp [edit, ht, replaceText, List.get?_map]

/-- Witness for C5: editing the second of two records with " c " trims the
replacement and leaves the first record untouched. -/
theorem edit_amended_witness :
    (edit ⟨[⟨0, Json.str "a"⟩, ⟨1, Json.str "b"⟩], [], 2⟩ ⟨1, Json.str "b"⟩
        (some " c ")).tasks.get? 1 = some ⟨1, Json.str (pyStrip " c ")⟩ ∧
    pyStrip " c " = "c" ∧
    (edit ⟨[⟨0, Json.str "a"⟩, ⟨1, Json.str "b"⟩], [], 2⟩ ⟨1, Json.str "b"⟩
        (some " c ")).tasks.get? 0 = some ⟨0, Json.str "a"⟩ := by
  have h := (edit_amended ⟨[⟨0, Json.str "a"⟩, ⟨1, Json.str "b"⟩], [], 2⟩
    ⟨1, Json.str "b"⟩ (some " c ")).2 " c " rfl (by decide)
  refine ⟨?_, by decide, ?_⟩
  · rw [h.1 1]
    rfl
  · rw [h.1 0]
    rfl

/-- A user operation on the board, carrying the dialog result where the
corresponding Python handler prompts for one. -/
inductive Op where
  | add (input : Option String)
  | edit (c : Record) (input : Option String)
  | complete (c : Record)
  | restore (c : Record)
  | delete (c : Record)

/-- Apply one operation (dispatch to the handler it models). -/
def applyOp (s : AppState) : Op → AppState
  | Op.add input => add_task_dialog s input
  | Op.edit c input => edit s c input
  | Op.complete c => complete s c
  | Op.restore c => restore s c
  | Op.delete c => delete s c

/-- Run a sequence of operations left to right. -/
def runOps (s : AppState) (ops : List Op) : AppState := ops.foldl applyOp s

/-- The identities currently on the board. -/
def idsOf (s : AppState) : List Nat := (s.tasks ++ s.completed).map (fun r => r.id)

/-- The identity invariant of every reachable state: board identities are
pairwise distinct (ids model object identity, and one object sits in at most
one slot) and lie below the allocation counter. -/
def Wf (s : AppState) : Prop :=
  (idsOf s).Nodup ∧ ∀ r ∈ s.tasks ++ s.completed, r.id < s.nextId

theorem removeRec_sublist (l : List Record) (r : Record) :
    (removeRec l r).Sublist l := by
  induction l with
  | nil => exact List.Sublist.refl []
  | cons x xs ih =>
    by_cases h : x.id = r.id
    · simp only [removeRec, if_pos h]
      exact List.sublist_cons_self x xs
    · simp only [removeRec, if_neg h]
      exact List.Sublist.cons₂ x ih

theorem mem_containsRec (l : List Record) (c : Record) (h : c ∈ l) :
    containsRec l c = true := by
  unfold containsRec
  rw [List.any_eq_true]
  exact ⟨c, h, by simp⟩

theorem containsRec_append_self (l : List Record) (a : Record) :
    containsRec (l ++ [a]) a = true :=
  mem_containsRec _ _ (List.mem_append_right l (List.mem_cons_self a []))

theorem containsRec_eq_false (l : List Record) (c : Record)
    (h : ∀ x ∈ l, x.id ≠ c.id) : containsRec l c = false := by
  unfold containsRec
  rw [List.any_eq_false]
  intro x hx
  simp [h x hx]

theorem removeRec_append_fresh (l : List Record) (a : Record)
    (h : ∀ x ∈ l, x.id ≠ a.id) : removeRec (l ++ [a]) a = l := by
  induction l with
  | nil => simp [removeRec]
  | cons x xs ih =>
    have hx : x.id ≠ a.id := h x (List.mem_cons_self x xs)
    simp only [List.cons_append, removeRec, if_neg hx]
    exact congrArg (x :: ·) (ih (fun y hy => h y (List.mem_cons_of_mem x hy)))

theorem nodup_ids_concat_fresh (l : List Nat) (n : Nat) (hnd : l.Nodup)
    (hlt : ∀ x ∈ l, x < n) : (l ++ [n]).Nodup := by
  rw [List.nodup_append]
  refine ⟨hnd, List.nodup_singleton n, ?_⟩
  intro a ha hb
  have h1 : a < n := hlt a ha
  have h2 : a = n := by simpa using hb
  omega

theorem wf_add_task (s : AppState) (t : Json) (h : Wf s) : Wf (add_task s t) := by
  obtain ⟨hnd, hlt⟩ := h
  unfold idsOf at hnd
  constructor
  · have hperm : ((s.tasks ++ [(⟨s.nextId, t⟩ : Record)]) ++ s.completed).Perm
        ((s.tasks ++ s.completed) ++ [⟨s.nextId, t⟩]) := by
      rw [List.append_assoc, List.singleton_append]
      exact List.perm_middle.trans
        (@List.perm_append_comm Record [⟨s.nextId, t⟩] (s.tasks ++ s.completed))
    have hiff := (hperm.map (fun r => r.id)).nodup_iff
    unfold idsOf add_task
    rw [hiff, List.map_append]
    exact nodup_ids_concat_fresh _ _ hnd
      (fun x hx => by
        rw [List.mem_map] at hx
        obtain ⟨r, hr, rfl⟩ := hx
        exact hlt r hr)
  · intro r hr
    simp only [add_task] at hr ⊢
    rw [List.append_assoc] at hr
    rcases List.mem_append.mp hr with h1 | h2
    · exact Nat.lt_succ_of_lt (hlt r (List.mem_append_left _ h1))
    · rcases List.mem_append.mp h2 with h3 | h4
      · have : r = ⟨s.nextId, t⟩ := by simpa using h3
        subst this
        exact Nat.lt_succ_self _
      · exact Nat.lt_succ_of_lt (hlt r (List.mem_append_right _ h4))

theorem wf_add_completed_task (s : AppState) (t : Json) (h : Wf s) :
    Wf (add_completed_task s t) := by
  obtain ⟨hnd, hlt⟩ := h
  unfold idsOf at hnd
  constructor
  · unfold idsOf add_completed_task
    rw [← List.append_assoc, List.map_append]
    exact nodup_ids_concat_fresh _ _ hnd
      (fun x hx => by
        rw [List.mem_map] at hx
        obtain ⟨r, hr, rfl⟩ := hx
        exact hlt r hr)
  · intro r hr
    simp only [add_completed_task] at hr ⊢
    rw [← List.append_assoc] at hr
    rcases List.mem_append.mp hr with h1 | h2
    · exact Nat.lt_succ_of_lt (hlt r h1)
    · have : r = ⟨s.nextId, t⟩ := by simpa using h2
      subst this
      exact Nat.lt_succ_self _

theorem wf_remove_tasks (s : AppState) (c : Record) (h : Wf s) :
    Wf { s with tasks := removeRec s.tasks c } := by
  obtain ⟨hnd, hlt⟩ := h
  have hsub : (removeRec s.tasks c ++ s.completed).Sublist (s.tasks ++ s.completed) :=
    List.Sublist.append (removeRec_sublist s.tasks c) (List.Sublist.refl _)
  exact ⟨List.Nodup.sublist (hsub.map _) hnd, fun r hr => hlt r (hsub.subset hr)⟩

theorem wf_remove_completed (s : AppState) (c : Record) (h : Wf s) :
    Wf { s with completed := removeRec s.completed c } := by
  obtain ⟨hnd, hlt⟩ := h
  have hsub : (s.tasks ++ removeRec s.completed c).Sublist (s.tasks ++ s.completed) :=
    List.Sublist.append (List.Sublist.refl _) (removeRec_sublist s.completed c)
  exact ⟨List.Nodup.sublist (hsub.map _) hnd, fun r hr => hlt r (hsub.subset hr)⟩

theorem replaceText_map_id (l : List Record) (rid : Nat) (t : Json) :
    (replaceText l rid t).map (fun r => r.id) = l.map (fun r => r.id) := by
  induction l with
  | nil => rfl
  | cons x xs ih =>
    by_cases h : x.id = rid <;>
      simp only [replaceText, List.map_cons, if_pos, if_neg, h] at ih ⊢ <;>
      simp [ih]

theorem wf_edit (s : AppState) (c : Record) (input : Option String) (h : Wf s) :
    Wf (edit s c input) := by
  match input with
  | none => exact h
  | some t =>
    by_cases ht : t = ""
    · simpa [edit, ht] using h
    · obtain ⟨hnd, hlt⟩ := h
      constructor
      · unfold idsOf
        simp only [edit, if_neg ht, List.map_append, replaceText_map_id]
        rw [← List.map_append]
        exact hnd
      · intro r hr
        simp only [edit, if_neg ht] at hr ⊢
        rcases List.mem_append.mp hr with h1 | h1 <;>
        · unfold replaceText at h1
          rw [List.mem_map] at h1
          obtain ⟨x, hx, hxr⟩ := h1
          have hid : r.id = x.id := by
            rw [← hxr]
            by_cases hc : x.id = c.id
            · simp [hc]
            · simp [hc]
          rw [hid]
          first
            | exact hlt x (List.mem_append_left _ hx)
            | exact hlt x (List.mem_append_right _ hx)

theorem wf_applyOp (s : AppState) (op : Op) (h : Wf s) : Wf (applyOp s op) := by
  match op with
  | Op.add input =>
    match input with
    | none => exact h
    | some t =>
      by_cases ht : t = ""
      · simpa [applyOp, add_task_dialog, ht] using h
      · simp only [applyOp, add_task_dialog, if_neg ht]
        exact wf_add_task s _ h
  | Op.edit c input => exact wf_edit s c input h
  | Op.complete c =>
    show Wf (complete s c)
    unfold complete
    have h1 := wf_add_completed_task s c.text h
    by_cases hc : containsRec (add_completed_task s c.text).tasks c
    · simp only [if_pos hc]
      exact wf_remove_tasks _ c h1
    · simp only [if_neg hc]
      exact h1
  | Op.restore c =>
    show Wf (restore s c)
    unfold restore
    by_cases hc : containsRec s.completed c
    · simp only [if_pos hc]
      exact wf_add_task _ c.text (wf_remove_completed s c h)
    · simp only [if_neg hc]
      exact wf_add_task _ c.text h
  | Op.delete c =>
    show Wf (delete s c)
    unfold delete
    by_cases h1 : containsRec s.tasks c
    · simp only [if_pos h1]
      exact wf_remove_tasks s c h
    · by_cases h2 : containsRec s.completed c
      · simp only [if_neg h1, if_pos h2]
        exact wf_remove_completed s c h
      · simp only [if_neg h1, if_neg h2]
        exact h

theorem wf_runOps (s : AppState) (ops : List Op) (h : Wf s) : Wf (runOps s ops) := by
  induction ops generalizing s with
  | nil => exact h
  | cons op rest ih => exact ih (applyOp s op) (wf_applyOp s op h)

theorem wf_of_checks (s : AppState) (h1 : (idsOf s).Nodup)
    (h2 : ∀ r ∈ s.tasks ++ s.completed, r.id < s.nextId) : Wf s := ⟨h1, h2⟩

/-- C6: starting from any state satisfying the identity invariant (as every
reachable state does), after any prefix of any sequence of user operations no
record is held by both the active and the completed list: each record is a
member of exactly zero or one of the two lists at every point. -/
theorem record_never_in_both_lists (s : AppState) (h : Wf s) (ops : List Op)
    (n : Nat) (r : Record) :
    ¬ (containsRec (runOps s (ops.take n)).tasks r = true ∧
       containsRec (runOps s (ops.take n)).completed r = true) := by
  rintro ⟨h1, h2⟩
  obtain ⟨hnd, _⟩ := wf_runOps s (ops.take n) h
  unfold containsRec at h1 h2
  rw [List.any_eq_true] at h1 h2
  obtain ⟨x, hx, hxid⟩ := h1
  obtain ⟨y, hy, hyid⟩ := h2
  rw [decide_eq_true_eq] at hxid hyid
  unfold idsOf at hnd
  rw [List.map_append, List.nodup_append] at hnd
  exact hnd.2.2 (List.mem_map.mpr ⟨x, hx, hxid⟩) (List.mem_map.mpr ⟨y, hy, hyid⟩)

/-- Witness for C6: add a task, then complete it; its identity is not in both
lists afterwards. -/
theorem record_never_in_both_lists_witness :
    Wf emptyState ∧
    ¬ (containsRec (runOps emptyState ([Op.add (some "x"),
          Op.complete ⟨0, Json.str "x"⟩].take 2)).tasks ⟨0, Json.str "x"⟩ = true ∧
       containsRec (runOps emptyState ([Op.add (some "x"),
          Op.complete ⟨0, Json.str "x"⟩].take 2)).completed ⟨0, Json.str "x"⟩ = true) :=
  ⟨wf_of_checks _ (by decide) (by decide),
   record_never_in_both_lists emptyState (wf_of_checks _ (by decide) (by decide))
     [Op.add (some "x"), Op.complete ⟨0, Json.str "x"⟩] 2 ⟨0, Json.str "x"⟩⟩

/-- C7: completing an active record and then restoring the freshly created
completed record removes that record from the completed list again (the
completed list returns to its prior value) and appends a record with the same
text to the end of the active list — the end, not the original position. -/
theorem complete_then_restore_appends_to_end (s : AppState) (h : Wf s)
    (c : Record) (hc : c ∈ s.tasks) :
    (restore (complete s c) ⟨s.nextId, c.text⟩).completed = s.completed ∧
    (restore (complete s c) ⟨s.nextId, c.text⟩).tasks
      = removeRec s.tasks c ++ [⟨s.nextId + 1, c.text⟩] := by
  obtain ⟨_, hlt⟩ := h
  have hcont : containsRec s.tasks c = true := mem_containsRec _ _ hc
  have hcomp : complete s c =
      ⟨removeRec s.tasks c, s.completed ++ [⟨s.nextId, c.text⟩], s.nextId + 1⟩ := by
    unfold complete add_completed_task
    simp [hcont]
  have hfresh : ∀ x ∈ s.completed, x.id ≠ s.nextId :=
    fun x hx => Nat.ne_of_lt (hlt x (List.mem_append_right _ hx))
  have hrem : removeRec (s.completed ++ [⟨s.nextId, c.text⟩]) ⟨s.nextId, c.text⟩
      = s.completed := removeRec_append_fresh _ _ hfresh
  have hcont2 : containsRec (s.completed ++ [⟨s.nextId, c.text⟩]) ⟨s.nextId, c.text⟩
      = true := containsRec_append_self _ _
  rw [hcomp]
  refine ⟨?_, ?_⟩ <;> simp [restore, add_task, hcont2, hrem]

/-- Witness for C7: completing the first of two active records and restoring
the new completed record empties the completed list again and re-appends the
text at the end of the active list. -/
theorem complete_then_restore_appends_to_end_witness :
    Wf ⟨[⟨0, Json.str "a"⟩, ⟨1, Json.str "b"⟩], [], 2⟩ ∧
    (⟨0, Json.str "a"⟩ : Record)
        ∈ (⟨[⟨0, Json.str "a"⟩, ⟨1, Json.str "b"⟩], [], 2⟩ : AppState).tasks ∧
    (restore (complete ⟨[⟨0, Json.str "a"⟩, ⟨1, Json.str "b"⟩], [], 2⟩
        ⟨0, Json.str "a"⟩) ⟨2, Json.str "a"⟩).completed = [] ∧
    (restore (complete ⟨[⟨0, Json.str "a"⟩, ⟨1, Json.str "b"⟩], [], 2⟩
        ⟨0, Json.str "a"⟩) ⟨2, Json.str "a"⟩).tasks
      = [⟨1, Json.str "b"⟩, ⟨3, Json.str "a"⟩] := by
  have h := complete_then_restore_appends_to_end
    ⟨[⟨0, Json.str "a"⟩, ⟨1, Json.str "b"⟩], [], 2⟩
    (wf_of_checks _ (by decide) (by decide))
    ⟨0, Json.str "a"⟩ (List.mem_cons_self _ _)
  refine ⟨wf_of_checks _ (by decide) (by decide), List.mem_cons_self _ _, h.1, ?_⟩
  rw [h.2]
  rfl

theorem removeRec_of_mem (l : List Record) (c : Record) (hc : c ∈ l)
    (hnd : (l.map (fun r => r.id)).Nodup) :
    c ∉ removeRec l c ∧ ∀ x : Record, x ≠ c → (x ∈ removeRec l c ↔ x ∈ l) := by
  induction l with
  | nil => cases hc
  | cons a as ih =>
    rw [List.map_cons, List.nodup_cons] at hnd
    obtain ⟨hna, hnas⟩ := hnd
    by_cases hid : a.id = c.id
    · have hac : a = c := by
        rcases List.mem_cons.mp hc with h1 | h1
        · exact h1.symm
        · exact absurd (by rw [hid]; exact List.mem_map.mpr ⟨c, h1, rfl⟩) hna
      subst hac
      simp only [removeRec, if_pos rfl]
      constructor
      · intro hmem
        exact hna (List.mem_map.mpr ⟨a, hmem, rfl⟩)
      · intro x hx
        constructor
        · exact fun hm => List.mem_cons_of_mem a hm
        · intro hm
          rcases List.mem_cons.mp hm with h1 | h1
          · exact absurd h1 hx
          · exact h1
    · have hcas : c ∈ as := by
        rcases List.mem_cons.mp hc with h1 | h1
        · exact absurd (congrArg (fun r => r.id) h1.symm) hid
        · exact h1
      obtain ⟨ih1, ih2⟩ := ih hcas hnas
      simp only [removeRec, if_neg hid]
      constructor
      · intro hmem
        rcases List.mem_cons.mp hmem with h1 | h1
        · exact absurd (congrArg (fun r => r.id) h1.symm) hid
        · exact ih1 h1
      · intro x hx
        rw [List.mem_cons, List.mem_cons, ih2 x hx]

/-- C8: under the identity invariant, delete removes a record held by either
list from the board entirely while preserving every other record's
memberships; delete of a record held by neither list (no board object shares
its identity) changes nothing — and the handler is total, so nothing is
raised. -/
theorem delete_removes_or_noop (s : AppState) (h : Wf s) (c : Record) :
    ((c ∈ s.tasks ∨ c ∈ s.completed) →
      c ∉ (delete s c).tasks ∧ c ∉ (delete s c).completed ∧
      (∀ x : Record, x ≠ c →
        ((x ∈ (delete s c).tasks ↔ x ∈ s.tasks) ∧
         (x ∈ (delete s c).completed ↔ x ∈ s.completed)))) ∧
    (containsRec s.tasks c = false → containsRec s.completed c = false →
      delete s c = s) := by
  obtain ⟨hnd, _⟩ := h
  unfold idsOf at hnd
  rw [List.map_append, List.nodup_append] at hnd
  obtain ⟨hndt, hndc, hdisj⟩ := hnd
  constructor
  · intro hmem
    rcases hmem with hmt | hmc
    · have hcont : containsRec s.tasks c = true := mem_containsRec _ _ hmt
      have hdel : delete s c = { s with tasks := removeRec s.tasks c } := by
        unfold delete
        simp [hcont]
      obtain ⟨hnot, hiff⟩ := removeRec_of_mem s.tasks c hmt hndt
      have hnc : c ∉ s.completed := by
        intro hcc
        exact hdisj (List.mem_map.mpr ⟨c, hmt, rfl⟩) (List.mem_map.mpr ⟨c, hcc, rfl⟩)
      rw [hdel]
      exact ⟨hnot, hnc, fun x hx => ⟨hiff x hx, Iff.rfl⟩⟩
    · have hcont1 : containsRec s.tasks c = false := by
        apply containsRec_eq_false
        intro x hx hxid
        exact hdisj (List.mem_map.mpr ⟨x, hx, hxid⟩) (List.mem_map.mpr ⟨c, hmc, rfl⟩)
      have hcont2 : containsRec s.completed c = true := mem_containsRec _ _ hmc
      have hdel : delete s c = { s with completed := removeRec s.completed c } := by
        unfold delete
        simp [hcont1, hcont2]
      obtain ⟨hnot, hiff⟩ := removeRec_of_mem s.completed c hmc hndc
      have hnt : c ∉ s.tasks := by
        intro hct
        exact hdisj (List.mem_map.mpr ⟨c, hct, rfl⟩) (List.mem_map.mpr ⟨c, hmc, rfl⟩)
      rw [hdel]
      exact ⟨hnt, hnot, fun x hx => ⟨Iff.rfl, hiff x hx⟩⟩
  · intro h1 h2
    unfold delete
    simp [h1, h2]

/-- Witness for C8: deleting the only active record removes it from the
board. -/
theorem delete_removes_or_noop_witness :
    Wf ⟨[⟨0, Json.str "a"⟩], [⟨1, Json.str "b"⟩], 2⟩ ∧
    (⟨0, Json.str "a"⟩ : Record)
        ∈ (⟨[⟨0, Json.str "a"⟩], [⟨1, Json.str "b"⟩], 2⟩ : AppState).tasks ∧
    (⟨0, Json.str "a"⟩ : Record)
        ∉ (delete ⟨[⟨0, Json.str "a"⟩], [⟨1, Json.str "b"⟩], 2⟩ ⟨0, Json.str "a"⟩).tasks ∧
    (⟨0, Json.str "a"⟩ : Record)
        ∉ (delete ⟨[⟨0, Json.str "a"⟩], [⟨1, Json.str "b"⟩], 2⟩ ⟨0, Json.str "a"⟩).completed := by
  have h := (delete_removes_or_noop ⟨[⟨0, Json.str "a"⟩], [⟨1, Json.str "b"⟩], 2⟩
    (wf_of_checks _ (by decide) (by decide)) ⟨0, Json.str "a"⟩).1
    (Or.inl (List.mem_cons_self _ _))
  exact ⟨wf_of_checks _ (by decide) (by decide), List.mem_cons_self _ _, h.1, h.2.1⟩

/-- The record's text is a string that is non-empty after trimming. -/
def goodTextB : Json → Bool
  | Json.str t => !(pyStrip t).isEmpty
  | _ => false

/-- A dialog result that cannot smuggle in an empty-after-trim text: the
dialog was cancelled, or the text is empty (rejected by `if text:`), or it is
non-empty after trimming.  The excluded case is exactly a whitespace-only
non-empty string. -/
def goodInputB : Option String → Bool
  | none => true
  | some t => (t == "") || !(pyStrip t).isEmpty

/-- Operations whose payload cannot introduce an empty-after-trim text
(complete/restore invoked on records with valid text, as they are when the
record sits on a valid board). -/
def goodOpB : Op → Bool
  | Op.add i => goodInputB i
  | Op.edit _ i => goodInputB i
  | Op.complete c => goodTextB c.text
  | Op.restore c => goodTextB c.text
  | Op.delete _ => true

/-- The text invariant of the spec's data model: every record's text is a
string that is non-empty after trimming. -/
def GoodTexts (s : AppState) : Prop :=
  ∀ r ∈ s.tasks ++ s.completed, goodTextB r.text = true

theorem dropWhile_head_not (p : Char → Bool) (l : List Char) (x : Char)
    (h : (l.dropWhile p).head? = some x) : p x = false := by
  induction l with
  | nil => simp [List.dropWhile] at h
  | cons a as ih =>
    rw [List.dropWhile_cons] at h
    by_cases hp : p a
    · rw [if_pos hp] at h
      exact ih h
    · rw [if_neg hp] at h
      simp only [List.head?_cons, Option.some.injEq] at h
      subst h
      simpa using hp

theorem dropWhile_eq_self_of_head (p : Char → Bool) (l : List Char)
    (h : ∀ x, l.head? = some x → p x = false) : l.dropWhile p = l := by
  cases l with
  | nil => rfl
  | cons a as =>
    have ha := h a rfl
    simp [List.dropWhile_cons, ha]

theorem dropWhile_suffix_decomp (p : Char → Bool) (l : List Char) :
    ∃ t, l = t ++ l.dropWhile p := by
  induction l with
  | nil => exact ⟨[], rfl⟩
  | cons a as ih =>
    by_cases hp : p a
    · obtain ⟨t, ht⟩ := ih
      refine ⟨a :: t, ?_⟩
      rw [List.dropWhile_cons, if_pos hp, List.cons_append, ← ht]
    · exact ⟨[], by simp [List.dropWhile_cons, hp]⟩

theorem strip_idem_aux (p : Char → Bool) (A : List Char)
    (hA : ∀ x, A.head? = some x → p x = false) :
    List.reverse (List.dropWhile p (List.reverse (List.dropWhile p
        (List.reverse (List.dropWhile p (List.reverse A))))))
      = List.reverse (List.dropWhile p (List.reverse A)) := by
  have hR : List.dropWhile p (List.reverse (List.dropWhile p (List.reverse A)))
      = List.reverse (List.dropWhile p (List.reverse A)) := by
    apply dropWhile_eq_self_of_head
    intro x hx
    obtain ⟨t, ht⟩ := dropWhile_suffix_decomp p A.reverse
    have hA2 : A = (A.reverse.dropWhile p).reverse ++ t.reverse := by
      have h2 := congrArg List.reverse ht
      rw [List.reverse_reverse, List.reverse_append] at h2
      exact h2
    apply hA x
    rw [hA2, List.head?_append, hx]
    rfl
  rw [hR, List.reverse_reverse,
    dropWhile_eq_self_of_head p (A.reverse.dropWhile p)
      (fun x hx => dropWhile_head_not p A.reverse x hx)]

theorem pyStrip_idem (s : String) : pyStrip (pyStrip s) = pyStrip s := by
  show String.mk _ = String.mk _
  exact congrArg String.mk
    (strip_idem_aux pyIsSpace (s.data.dropWhile pyIsSpace)
      (fun x hx => dropWhile_head_not pyIsSpace s.data x hx))

/-- C9 counterexample: from the default board — the state a first startup
reaches — the add dialog applied to the whitespace-only input " " (accepted
by `if text:`) appends a record whose text is empty after trimming: the text
invariant does not hold in every reachable state. -/
theorem whitespace_add_breaks_text_invariant :
    ¬ GoodTexts (add_task_dialog (startup FileRead.missing) (some " ")) := by
  unfold GoodTexts
  decide

theorem text_mem_of_mem_zipWith (ids : List Nat) (ts : List Json) (r : Record)
    (h : r ∈ List.zipWith Record.mk ids ts) : r.text ∈ ts := by
  induction ids generalizing ts with
  | nil => simp [List.zipWith] at h
  | cons i is ih =>
    cases ts with
    | nil => simp at h
    | cons t tts =>
      simp only [List.zipWith_cons_cons, List.mem_cons] at h
      rcases h with rfl | h
      · exact List.mem_cons_self _ _
      · exact List.mem_cons_of_mem _ (ih tts h)

theorem goodTexts_applyOp (s : AppState) (op : Op) (h : GoodTexts s)
    (hop : goodOpB op = true) : GoodTexts (applyOp s op) := by
  unfold GoodTexts at h ⊢
  match op with
  | Op.add input =>
    match input with
    | none => exact h
    | some t =>
      by_cases ht : t = ""
      · simpa [applyOp, add_task_dialog, ht] using h
      · have hgood : goodTextB (Json.str (pyStrip t)) = true := by
          simp only [goodOpB, goodInputB, Bool.or_eq_true] at hop
          rcases hop with h1 | h1
          · exact absurd (by simpa using h1) ht
          · simp only [goodTextB]
            rw [pyStrip_idem]
            exact h1
        intro r hr
        simp only [applyOp, add_task_dialog, if_neg ht, add_task] at hr
        rw [List.append_assoc] at hr
        rcases List.mem_append.mp hr with h1 | h1
        · exact h r (List.mem_append_left _ h1)
        · rcases List.mem_append.mp h1 with h2 | h2
          · have hreq : r = ⟨s.nextId, Json.str (pyStrip t)⟩ := by simpa using h2
            rw [hreq]
            exact hgood
          · exact h r (List.mem_append_right _ h2)
  | Op.edit c input =>
    match input with
    | none => exact h
    | some t =>
      by_cases ht : t = ""
      · simpa [applyOp, edit, ht] using h
      · have hgood : goodTextB (Json.str (pyStrip t)) = true := by
          simp only [goodOpB, goodInputB, Bool.or_eq_true] at hop
          rcases hop with h1 | h1
          · exact absurd (by simpa using h1) ht
          · simp only [goodTextB]
            rw [pyStrip_idem]
            exact h1
        intro r hr
        simp only [applyOp, edit, if_neg ht] at hr
        rcases List.mem_append.mp hr with h1 | h1 <;>
        · unfold replaceText at h1
          rw [List.mem_map] at h1
          obtain ⟨x, hx, hxr⟩ := h1
          rw [← hxr]
          by_cases hcx : x.id = c.id
          · simpa [hcx] using hgood
          · simp only [if_neg hcx]
            first
              | exact h x (List.mem_append_left _ hx)
              | exact h x (List.mem_append_right _ hx)
  | Op.complete c =>
    have hgood : goodTextB c.text = true := hop
    show ∀ r ∈ (complete s c).tasks ++ (complete s c).completed, goodTextB r.text = true
    unfold complete
    by_cases hc : containsRec (add_completed_task s c.text).tasks c
    · rw [if_pos hc]
      intro r hr
      simp only [add_completed_task] at hr
      rcases List.mem_append.mp hr with h1 | h1
      · exact h r (List.mem_append_left _ ((removeRec_sublist _ _).subset h1))
      · rcases List.mem_append.mp h1 with h2 | h2
        · exact h r (List.mem_append_right _ h2)
        · have hreq : r = ⟨s.nextId, c.text⟩ := by simpa using h2
          rw [hreq]
          exact hgood
    · rw [if_neg hc]
      intro r hr
      simp only [add_completed_task] at hr
      rw [← List.append_assoc] at hr
      rcases List.mem_append.mp hr with h1 | h1
      · exact h r h1
      · have hreq : r = ⟨s.nextId, c.text⟩ := by simpa using h1
        rw [hreq]
        exact hgood
  | Op.restore c =>
    have hgood : goodTextB c.text = true := hop
    show ∀ r ∈ (restore s c).tasks ++ (restore s c).completed, goodTextB r.text = true
    unfold restore
    by_cases hc : containsRec s.completed c
    · rw [if_pos hc]
      intro r hr
      simp only [add_task] at hr
      rw [List.append_assoc] at hr
      rcases List.mem_append.mp hr with h1 | h1
      · exact h r (List.mem_append_left _ h1)
      · rcases List.mem_append.mp h1 with h2 | h2
        · have hreq : r = ⟨s.nextId, c.text⟩ := by simpa using h2
          rw [hreq]
          exact hgood
        · exact h r
            (List.mem_append_right _ ((removeRec_sublist _ _).subset h2))
    · rw [if_neg hc]
      intro r hr
      simp only [add_task] at hr
      rw [List.append_assoc] at hr
      rcases List.mem_append.mp hr with h1 | h1
      · exact h r (List.mem_append_left _ h1)
      · rcases List.mem_append.mp h1 with h2 | h2
        · have hreq : r = ⟨s.nextId, c.text⟩ := by simpa using h2
          rw [hreq]
          exact hgood
        · exact h r (List.mem_append_right _ h2)
  | Op.delete c =>
    show ∀ r ∈ (delete s c).tasks ++ (delete s c).completed, goodTextB r.text = true
    unfold delete
    by_cases h1 : containsRec s.tasks c
    · rw [if_pos h1]
      intro r hr
      rcases List.mem_append.mp hr with h2 | h2
      · exact h r (List.mem_append_left _ ((removeRec_sublist _ _).subset h2))
      · exact h r (List.mem_append_right _ h2)
    · by_cases h2 : containsRec s.completed c
      · rw [if_neg h1, if_pos h2]
        intro r hr
        rcases List.mem_append.mp hr with h3 | h3
        · exact h r (List.mem_append_left _ h3)
        · exact h r
            (List.mem_append_right _ ((removeRec_sublist _ _).subset h3))
      · rw [if_neg h1, if_neg h2]
        exact h

/-- C9 amended: from a state whose record texts are all non-empty after
trimming, the invariant is preserved by every sequence of operations whose
payloads cannot introduce an empty-after-trim text (add/edit input that is
not a non-empty whitespace-only string; complete/restore of records with
valid text), and load of a file whose two arrays hold only such texts also
preserves it.  The unrestricted claim fails: a whitespace-only add (or edit)
input, and load of a file holding an empty string, each create a record whose
text is empty after trimming. -/
theorem good_texts_preserved (s : AppState) (h : GoodTexts s) :
    (∀ ops : List Op, (∀ op ∈ ops, goodOpB op = true) → ∀ n : Nat,
      GoodTexts (runOps s (ops.take n))) ∧
    (∀ ts cs : List Json, (∀ t ∈ ts, goodTextB t = true) →
      (∀ t ∈ cs, goodTextB t = true) →
      GoodTexts ((load_state s (FileRead.parsed
        (Json.obj [("tasks", Json.arr ts), ("completed", Json.arr cs)]))).1)) := by
  constructor
  · have key : ∀ ops : List Op, (∀ op ∈ ops, goodOpB op = true) → ∀ s0 : AppState,
        GoodTexts s0 → GoodTexts (runOps s0 ops) := by
      intro ops
      induction ops with
      | nil => exact fun _ s0 h0 => h0
      | cons op rest ih =>
        intro hops s0 h0
        exact ih (fun x hx => hops x (List.mem_cons_of_mem op hx)) (applyOp s0 op)
          (goodTexts_applyOp s0 op h0 (hops op (List.mem_cons_self op rest)))
    intro ops hops n
    exact key (ops.take n)
      (fun x hx => hops x (List.mem_of_mem_take hx)) s h
  · intro ts cs hts hcs
    have hload : (load_state s (FileRead.parsed
        (Json.obj [("tasks", Json.arr ts), ("completed", Json.arr cs)]))).1
        = cs.foldl add_completed_task (ts.foldl add_task s) := rfl
    rw [hload]
    obtain ⟨ht1, ht2, ht3⟩ := foldl_add_task_spec ts s
    obtain ⟨hc1, hc2, hc3⟩ := foldl_add_completed_task_spec cs (ts.foldl add_task s)
    unfold GoodTexts at h ⊢
    intro r hr
    rw [List.mem_append, hc1, hc2, ht1, ht2] at hr
    rcases hr with h1 | h1
    · rcases List.mem_append.mp h1 with h2 | h2
      · exact h r (List.mem_append_left _ h2)
      · exact hts r.text (text_mem_of_mem_zipWith _ _ _ h2)
    · rcases List.mem_append.mp h1 with h2 | h2
      · exact h r (List.mem_append_right _ h2)
      · exact hcs r.text (text_mem_of_mem_zipWith _ _ _ h2)

/-- Witness for C9: the default board satisfies the text invariant and keeps
it after adding a task with the input "ok". -/
theorem good_texts_preserved_witness :
    GoodTexts (startup FileRead.missing) ∧
    GoodTexts (runOps (startup FileRead.missing) ([Op.add (some "ok")].take 1)) := by
  have hg : GoodTexts (startup FileRead.missing) := by
    unfold GoodTexts
    decide
  exact ⟨hg, (good_texts_preserved (startup FileRead.missing) hg).1
    [Op.add (some "ok")] (by decide) 1⟩
